import Mathlib

/-!
# Verification of the decima chunk codec

A shallow embedding of `decima.py`, a tool that encodes a binary file as a
stream of decimal text lines (one line per 32-byte chunk, little-endian
integer value, with a `:LENGTH` suffix on a short final chunk) and decodes
such a stream back to bytes.

Modelling conventions:

* bytes are `Nat` values (with `< 256` hypotheses where the Python `bytes`
  type guarantees it); a chunk is a `List Nat`;
* a text line is a `List Char`, carrying its trailing newline exactly as the
  Python line iterator hands it to `decode_line`;
* Python's `int(text)` is modelled by `pyInt` for ASCII text: surrounding
  whitespace is stripped, an optional single sign is read, then a non-empty
  run of decimal digits (exotic `int()` inputs — unicode digits, underscore
  grouping — are outside the inputs this program ever sees);
* the generator `bitfy` is recursive with a data-dependent depth; it is
  embedded with a fuel parameter (`bitfyAux`, fuel `v` always suffices) and
  its source-level recurrence is recovered as the proved equation
  `bitfy_eq`.  The generator semantics are those the program was written
  for, where `raise StopIteration` ends the generator.  The same fuel
  device is used for `natToDecimal` (Python `str(int)`) and `chunksOf`
  (the chunked read loop);
* gzip compression and file IO are transparent plumbing: `encode` maps a
  byte list to the list of text lines written, `decode` maps a list of
  text lines to the bytes written plus an optional error, recording that
  decoding aborts at the first failing line with earlier output in place.
-/

namespace Decima

/-- `Decima.chunk_size` from the source: chunks are 32 bytes. -/
def chunk_size : Nat := 32

/-- ASCII whitespace, as stripped by Python `int()` from both ends of its
argument. -/
def isSpaceChar (c : Char) : Bool :=
  c = ' ' || c = '\t' || c = '\n' || c = '\r' || c = '\x0B' || c = '\x0C'

/-- The value of one ASCII decimal digit, `none` on any other character. -/
def digitVal (c : Char) : Option Nat :=
  if ('0' ≤ c && c ≤ '9') then some (c.toNat - 48) else none

/-- Accumulate the value of a digit run; `none` as soon as a non-digit
appears. -/
def parseDigitsAux : List Char → Nat → Option Nat
  | [], acc => some acc
  | c :: cs, acc =>
    match digitVal c with
    | none => none
    | some d => parseDigitsAux cs (10 * acc + d)

/-- A non-empty run of decimal digits, as the digit part of Python `int()`. -/
def parseDigits (s : List Char) : Option Nat :=
  if s.isEmpty then none else parseDigitsAux s 0

/-- Strip whitespace from both ends, as Python `int()` does before parsing. -/
def pyStrip (s : List Char) : List Char :=
  ((s.dropWhile isSpaceChar).reverse.dropWhile isSpaceChar).reverse

/-- Python `int(text)` on ASCII text: strip surrounding whitespace, read an
optional sign, then a non-empty digit run; `none` models `ValueError`. -/
def pyInt (s : List Char) : Option Int :=
  match pyStrip s with
  | [] => none
  | c :: rest =>
    if c = '+' then (parseDigits rest).map (fun n => (n : Int))
    else if c = '-' then (parseDigits rest).map (fun n => -(n : Int))
    else (parseDigits (c :: rest)).map (fun n => (n : Int))

/-- Python `line.split(b':')`: split on every colon, keeping empty fields. -/
def splitOnColon : List Char → List (List Char)
  | [] => [[]]
  | c :: rest =>
    if c = ':' then [] :: splitOnColon rest
    else
      match splitOnColon rest with
      | [] => [[c]]
      | h :: t => (c :: h) :: t

/-- Fuel-indexed body of `bitfy`.  With fuel at least `v` the fuel clause is
never reached; the fuel-0 clause coincides with the real result at `v = 0`. -/
def bitfyAux : Nat → Nat → List Nat
  | 0, v => [v % 256]
  | fuel + 1, v =>
    if v / 256 = 0 then [v % 256] else v % 256 :: bitfyAux fuel (v / 256)

/-- The generator `bitfy(v)` from the source: `divmod(v, 256)`, yield the
remainder, stop when the quotient is 0, else recurse on the quotient.  Its
source-level recurrence is the proved equation `bitfy_eq`. -/
def bitfy (v : Nat) : List Nat := bitfyAux v v

/-- The ASCII character of one decimal digit. -/
def digitChar (d : Nat) : Char := Char.ofNat (48 + d)

/-- Fuel-indexed body of `natToDecimal`; fuel `n` always suffices and the
fuel-0 clause coincides with the real result at `n = 0`. -/
def natToDecimalAux : Nat → Nat → List Char
  | 0, n => [digitChar (n % 10)]
  | fuel + 1, n =>
    if n < 10 then [digitChar n]
    else natToDecimalAux fuel (n / 10) ++ [digitChar (n % 10)]

/-- Python `str(n)` for a non-negative integer: canonical decimal digits,
no sign, no leading zeros, `0` rendered as `"0"`. -/
def natToDecimal (n : Nat) : List Char := natToDecimalAux n n

/-- `int.from_bytes(chunk, byteorder='little')`: byte 0 is least
significant. -/
def fromBytesLE : List Nat → Nat
  | [] => 0
  | b :: bs => b + 256 * fromBytesLE bs

/-- Python `bytes.ljust(width, b'\x00')`: right-pad with zero bytes up to
`width`; a width at most the length (negative included) returns the bytes
unchanged. -/
def ljust (bs : List Nat) (w : Int) : List Nat :=
  bs ++ List.replicate (w.toNat - bs.length) 0

/-- The line `encode` writes for one chunk: the decimal of the chunk's
little-endian value, a `:LENGTH` suffix when the chunk is shorter than
`chunk_size`, and the newline. -/
def encode_chunk (chunk : List Nat) : List Char :=
  natToDecimal (fromBytesLE chunk)
    ++ (if chunk.length < chunk_size then ':' :: natToDecimal chunk.length else [])
    ++ ['\n']

/-- Fuel-indexed body of `chunksOf`; fuel `data.length` always suffices. -/
def chunksOfAux : Nat → List Nat → List (List Nat)
  | 0, _ => []
  | fuel + 1, data =>
    if data.isEmpty then []
    else data.take chunk_size :: chunksOfAux fuel (data.drop chunk_size)

/-- The chunked read loop of `encode`: successive reads of up to
`chunk_size` bytes, stopping at the first empty read. -/
def chunksOf (data : List Nat) : List (List Nat) := chunksOfAux data.length data

/-- `Decima.encode`: one output line per chunk of the input bytes, in
order. -/
def encode (data : List Nat) : List (List Char) :=
  (chunksOf data).map encode_chunk

/-- The ways `decode_line` can fail: `formatError` is a `ValueError` from
`int()`, `indexError` a missing `x[1]` field, `recursionError` the
non-terminating recursion of `bitfy` on a negative value. -/
inductive DecodeErr where
  | formatError
  | indexError
  | recursionError
  deriving DecidableEq

/-- `Decima.decode_line`: try `int(line)` whole (target `chunk_size`);
otherwise split on `:`, parse field 0 as the integer and field 1 as the
target; turn the integer into bytes with `bitfy` and right-pad with
`ljust`. -/
def decode_line (line : List Char) : Except DecodeErr (List Nat) :=
  match pyInt line with
  | some n =>
    if 0 ≤ n then Except.ok (ljust (bitfy n.toNat) (chunk_size : Int))
    else Except.error DecodeErr.recursionError
  | none =>
    let x := splitOnColon line
    match pyInt (x.headD []) with
    | none => Except.error DecodeErr.formatError
    | some n =>
      match x.get? 1 with
      | none => Except.error DecodeErr.indexError
      | some s =>
        match pyInt s with
        | none => Except.error DecodeErr.formatError
        | some p =>
          if 0 ≤ n then Except.ok (ljust (bitfy n.toNat) p)
          else Except.error DecodeErr.recursionError

/-- `Decima.decode` over a line stream: write each decoded line in order;
on the first failing line stop, leaving the bytes already produced in
place and recording the error. -/
def decode : List (List Char) → List Nat × Option DecodeErr
  | [] => ([], none)
  | l :: ls =>
    match decode_line l with
    | Except.error e => ([], some e)
    | Except.ok bs =>
      match decode ls with
      | (rest, err) => (bs ++ rest, err)

/-- Python `s.rstrip(chars)`: remove trailing characters belonging to the
character set `cs` (not the exact suffix `cs`). -/
def pyRstrip (s : List Char) (cs : List Char) : List Char :=
  (s.reverse.dropWhile (fun c => cs.contains c)).reverse

/-- The output file name `decode` derives from its input file name:
`self.decima_file.rstrip(".decima")`, a character-set trim over
`\x7b '.', 'd', 'e', 'c', 'i', 'm', 'a' \x7d`. -/
def decodedFileName (name : List Char) : List Char :=
  pyRstrip name (['.', 'd', 'e', 'c', 'i', 'm', 'a'])

/-- Is this character an ASCII decimal digit? -/
def isDecDigit (c : Char) : Bool := '0' ≤ c && c ≤ '9'

/-- Modelled from the spec (section 6 grammar): INTEGER is `0` or a
decimal digit sequence with a nonzero leading digit. -/
def specValidInteger (s : List Char) : Bool :=
  match s with
  | [] => false
  | c :: rest => (isDecDigit c && rest.all isDecDigit) && (c ≠ '0' || rest.isEmpty)

/-- Modelled from the spec (section 6 grammar): LENGTH is a decimal digit
sequence whose value lies in `[1, chunk_size - 1]`. -/
def specValidLength (s : List Char) : Bool :=
  match parseDigits s with
  | some v => decide (1 ≤ v) && decide (v ≤ chunk_size - 1)
  | none => false

/-- Modelled from the spec (section 6 grammar): a line body (newline
excluded) is `INTEGER` or `INTEGER:LENGTH`. -/
def specValidLine (s : List Char) : Bool :=
  match splitOnColon s with
  | [i] => specValidInteger i
  | [i, l] => specValidInteger i && specValidLength l
  | _ => false

/-! ## Fuel elimination: the fuel parameters never matter once they dominate
the measure, and the source-level recurrences are recovered as equations. -/

theorem bitfyAux_congr : ∀ f1 f2 v, v ≤ f1 → v ≤ f2 → bitfyAux f1 v = bitfyAux f2 v := by
  intro f1
  induction f1 with
  | zero =>
    intro f2 v h1 h2
    have hv : v = 0 := by omega
    subst hv
    cases f2 with
    | zero => rfl
    | succ g => simp [bitfyAux]
  | succ f ih =>
    intro f2 v h1 h2
    cases f2 with
    | zero =>
      have hv : v = 0 := by omega
      subst hv
      simp [bitfyAux]
    | succ g =>
      simp only [bitfyAux]
      by_cases hq : v / 256 = 0
      · simp [hq]
      · have hv : 0 < v := by
          rcases Nat.eq_zero_or_pos v with h | h
          · subst h; simp at hq
          · exact h
        have hlt : v / 256 < v := Nat.div_lt_self hv (by norm_num)
        simp only [hq, if_false]
        exact congrArg (v % 256 :: ·) (ih g (v / 256) (by omega) (by omega))

theorem bitfy_eq (v : Nat) :
    bitfy v = if v / 256 = 0 then [v % 256] else v % 256 :: bitfy (v / 256) := by
  cases v with
  | zero => rfl
  | succ w =>
    show bitfyAux (w + 1) (w + 1) = _
    simp only [bitfyAux]
    by_cases hq : (w + 1) / 256 = 0
    · simp [hq]
    · have hlt : (w + 1) / 256 < w + 1 := Nat.div_lt_self (by omega) (by norm_num)
      simp only [hq, if_false]
      exact congrArg ((w + 1) % 256 :: ·)
        (bitfyAux_congr w ((w + 1) / 256) ((w + 1) / 256) (by omega) le_rfl)

theorem natToDecimalAux_congr :
    ∀ f1 f2 n, n ≤ f1 → n ≤ f2 → natToDecimalAux f1 n = natToDecimalAux f2 n := by
  intro f1
  induction f1 with
  | zero =>
    intro f2 n h1 h2
    have hn : n = 0 := by omega
    subst hn
    cases f2 with
    | zero => rfl
    | succ g => simp [natToDecimalAux]
  | succ f ih =>
    intro f2 n h1 h2
    cases f2 with
    | zero =>
      have hn : n = 0 := by omega
      subst hn
      simp [natToDecimalAux]
    | succ g =>
      simp only [natToDecimalAux]
      by_cases hn : n < 10
      · simp [hn]
      · have hlt : n / 10 < n := Nat.div_lt_self (by omega) (by norm_num)
        simp only [hn, if_false]
        exact congrArg (· ++ [digitChar (n % 10)]) (ih g (n / 10) (by omega) (by omega))

theorem natToDecimal_eq (n : Nat) :
    natToDecimal n =
      if n < 10 then [digitChar n] else natToDecimal (n / 10) ++ [digitChar (n % 10)] := by
  cases n with
  | zero => rfl
  | succ w =>
    show natToDecimalAux (w + 1) (w + 1) = _
    simp only [natToDecimalAux]
    by_cases hn : w + 1 < 10
    · simp [hn]
    · have hlt : (w + 1) / 10 < w + 1 := Nat.div_lt_self (by omega) (by norm_num)
      simp only [hn, if_false]
      exact congrArg (· ++ [digitChar ((w + 1) % 10)])
        (natToDecimalAux_congr w ((w + 1) / 10) ((w + 1) / 10) (by omega) le_rfl)

theorem chunksOfAux_congr :
    ∀ f1 f2 data, data.length ≤ f1 → data.length ≤ f2 →
      chunksOfAux f1 data = chunksOfAux f2 data := by
  intro f1
  induction f1 with
  | zero =>
    intro f2 data h1 h2
    have hd : data = [] := List.eq_nil_of_length_eq_zero (by omega)
    subst hd
    cases f2 with
    | zero => rfl
    | succ g => simp [chunksOfAux]
  | succ f ih =>
    intro f2 data h1 h2
    cases f2 with
    | zero =>
      have hd : data = [] := List.eq_nil_of_length_eq_zero (by omega)
      subst hd
      simp [chunksOfAux]
    | succ g =>
      simp only [chunksOfAux]
      by_cases hd : data.isEmpty
      · simp [hd]
      · have hne : data ≠ [] := by
          intro h
          subst h
          simp at hd
        have hpos : 0 < data.length := List.length_pos.mpr hne
        have hlen : (data.drop chunk_size).length = data.length - chunk_size :=
          List.length_drop _ _
        simp only [hd, if_false]
        refine congrArg (data.take chunk_size :: ·) (ih g (data.drop chunk_size) ?_ ?_)
        · rw [hlen]; show data.length - 32 ≤ f; omega
        · rw [hlen]; show data.length - 32 ≤ g; omega

theorem chunksOf_cons (a : Nat) (l : List Nat) :
    chunksOf (a :: l) =
      (a :: l).take chunk_size :: chunksOf ((a :: l).drop chunk_size) := by
  show chunksOfAux (l.length + 1) (a :: l) = _
  simp only [chunksOfAux, List.isEmpty_cons, if_false, Bool.false_eq_true]
  refine congrArg ((a :: l).take chunk_size :: ·)
    (chunksOfAux_congr l.length _ _ ?_ le_rfl)
  have hlen : ((a :: l).drop chunk_size).length = (a :: l).length - chunk_size :=
    List.length_drop _ _
  rw [hlen]
  show l.length + 1 - 32 ≤ l.length
  omega

/-! ## Decimal digit characters -/

theorem digitChar_props (d : Nat) (h : d < 10) :
    digitVal (digitChar d) = some d ∧ isSpaceChar (digitChar d) = false ∧
      digitChar d ≠ ':' ∧ digitChar d ≠ '+' ∧ digitChar d ≠ '-' ∧
      isDecDigit (digitChar d) = true := by
  interval_cases d <;> exact ⟨rfl, rfl, by decide, by decide, by decide, rfl⟩

theorem natToDecimal_mem (n : Nat) : ∀ c ∈ natToDecimal n, ∃ d, d < 10 ∧ c = digitChar d := by
  have key : ∀ fuel m, ∀ c ∈ natToDecimalAux fuel m, ∃ d, d < 10 ∧ c = digitChar d := by
    intro fuel
    induction fuel with
    | zero =>
      intro m c hc
      simp only [natToDecimalAux, List.mem_singleton] at hc
      exact ⟨m % 10, Nat.mod_lt _ (by norm_num), hc⟩
    | succ f ih =>
      intro m c hc
      simp only [natToDecimalAux] at hc
      by_cases hm : m < 10
      · rw [if_pos hm] at hc
        simp only [List.mem_singleton] at hc
        exact ⟨m, hm, hc⟩
      · rw [if_neg hm] at hc
        rcases List.mem_append.mp hc with h1 | h1
        · exact ih (m / 10) c h1
        · simp only [List.mem_singleton] at h1
          exact ⟨m % 10, Nat.mod_lt _ (by norm_num), h1⟩
  exact key n n

theorem natToDecimal_ne_nil (n : Nat) : natToDecimal n ≠ [] := by
  have key : ∀ fuel m, natToDecimalAux fuel m ≠ [] := by
    intro fuel
    cases fuel with
    | zero => intro m; simp [natToDecimalAux]
    | succ f =>
      intro m
      simp only [natToDecimalAux]
      by_cases hm : m < 10
      · simp [hm]
      · simp [hm]
  exact key n n

/-! ## Parsing canonical decimal renderings -/

theorem parseDigitsAux_append (xs ys : List Char) (acc : Nat) :
    parseDigitsAux (xs ++ ys) acc =
      match parseDigitsAux xs acc with
      | none => none
      | some a => parseDigitsAux ys a := by
  induction xs generalizing acc with
  | nil => rfl
  | cons c cs ih =>
    simp only [List.cons_append, parseDigitsAux]
    cases digitVal c with
    | none => rfl
    | some d => exact ih (10 * acc + d)

theorem parseDigitsAux_natToDecimal (n acc : Nat) :
    parseDigitsAux (natToDecimal n) acc =
      some (acc * 10 ^ (natToDecimal n).length + n) := by
  induction n using Nat.strong_induction_on generalizing acc with
  | _ n ih =>
    rw [natToDecimal_eq n]
    by_cases hn : n < 10
    · rw [if_pos hn]
      simp only [parseDigitsAux, (digitChar_props n hn).1, List.length_singleton, pow_one]
      rw [Nat.mul_comm]
    · rw [if_neg hn]
      have hlt : n / 10 < n := Nat.div_lt_self (by omega) (by norm_num)
      have hmod : n % 10 < 10 := Nat.mod_lt _ (by norm_num)
      rw [parseDigitsAux_append]
      rw [ih (n / 10) hlt acc]
      simp only [parseDigitsAux, (digitChar_props (n % 10) hmod).1,
        List.length_append, List.length_singleton]
      congr 1
      rw [pow_succ, ← mul_assoc]
      generalize acc * 10 ^ (natToDecimal (n / 10)).length = a
      omega

theorem parseDigits_natToDecimal (n : Nat) : parseDigits (natToDecimal n) = some n := by
  have hne : (natToDecimal n).isEmpty = false := by
    cases h : natToDecimal n with
    | nil => exact absurd h (natToDecimal_ne_nil n)
    | cons c cs => rfl
  rw [parseDigits, hne]
  simp only [Bool.false_eq_true, if_false]
  rw [parseDigitsAux_natToDecimal]
  norm_num

/-! ## Stripping and Python integer parsing on canonical text -/

theorem dropWhile_space_eq_self (l : List Char) (hl : ∀ c ∈ l, isSpaceChar c = false) :
    l.dropWhile isSpaceChar = l := by
  cases l with
  | nil => rfl
  | cons a l2 =>
    rw [List.dropWhile_cons, hl a (List.mem_cons_self a l2)]
    simp

theorem pyStrip_of_no_space (t : List Char) (h : ∀ c ∈ t, isSpaceChar c = false) :
    pyStrip t = t := by
  have h1 : t.dropWhile isSpaceChar = t := dropWhile_space_eq_self t h
  have h2 : t.reverse.dropWhile isSpaceChar = t.reverse :=
    dropWhile_space_eq_self t.reverse (fun c hc => h c (List.mem_reverse.mp hc))
  rw [pyStrip, h1, h2, List.reverse_reverse]

theorem pyStrip_append_newline (t : List Char) (hne : t ≠ [])
    (h : ∀ c ∈ t, isSpaceChar c = false) : pyStrip (t ++ ['\n']) = t := by
  cases t with
  | nil => exact absurd rfl hne
  | cons c cs =>
    have h1 : ((c :: cs) ++ ['\n']).dropWhile isSpaceChar = (c :: cs) ++ ['\n'] := by
      rw [List.cons_append, List.dropWhile_cons, h c (List.mem_cons_self c cs)]
      simp
    have h2 : (((c :: cs) ++ ['\n']).reverse).dropWhile isSpaceChar = (c :: cs).reverse := by
      rw [List.reverse_append, List.reverse_singleton, List.singleton_append,
        List.dropWhile_cons]
      have hnl : isSpaceChar '\n' = true := rfl
      rw [hnl]
      simp only [if_true]
      exact dropWhile_space_eq_self _ (fun x hx => h x (List.mem_reverse.mp hx))
    rw [pyStrip, h1, h2, List.reverse_reverse]

theorem natToDecimal_no_space (n : Nat) : ∀ c ∈ natToDecimal n, isSpaceChar c = false := by
  intro c hc
  obtain ⟨d, hd, rfl⟩ := natToDecimal_mem n c hc
  exact (digitChar_props d hd).2.1

theorem pyInt_of_digit_head (s : List Char) (d : Nat) (r : List Char)
    (hd10 : d < 10) (hstrip : pyStrip s = digitChar d :: r) :
    pyInt s = (parseDigits (digitChar d :: r)).map (fun n => (n : Int)) := by
  simp only [pyInt, hstrip]
  rw [if_neg (digitChar_props d hd10).2.2.2.1, if_neg (digitChar_props d hd10).2.2.2.2.1]

theorem exists_digit_head (n : Nat) (r : List Char) :
    ∃ d q, d < 10 ∧ natToDecimal n ++ r = digitChar d :: q := by
  cases hdec : natToDecimal n with
  | nil => exact absurd hdec (natToDecimal_ne_nil n)
  | cons c cs =>
    have hc : c ∈ natToDecimal n := by rw [hdec]; exact List.mem_cons_self c cs
    obtain ⟨d, hd, hcd⟩ := natToDecimal_mem n c hc
    refine ⟨d, cs ++ r, hd, ?_⟩
    rw [hcd]
    rfl

theorem pyInt_natToDecimal_newline (n : Nat) :
    pyInt (natToDecimal n ++ ['\n']) = some ((n : Nat) : Int) := by
  have hstrip : pyStrip (natToDecimal n ++ ['\n']) = natToDecimal n :=
    pyStrip_append_newline _ (natToDecimal_ne_nil n) (natToDecimal_no_space n)
  obtain ⟨d, q, hd, hq⟩ := exists_digit_head n ([] : List Char)
  rw [List.append_nil] at hq
  rw [pyInt_of_digit_head _ d q hd (by rw [hstrip, hq]), ← hq, parseDigits_natToDecimal]
  rfl

theorem pyInt_natToDecimal (n : Nat) :
    pyInt (natToDecimal n) = some ((n : Nat) : Int) := by
  have hstrip : pyStrip (natToDecimal n) = natToDecimal n :=
    pyStrip_of_no_space _ (natToDecimal_no_space n)
  obtain ⟨d, q, hd, hq⟩ := exists_digit_head n ([] : List Char)
  rw [List.append_nil] at hq
  rw [pyInt_of_digit_head _ d q hd (by rw [hstrip, hq]), ← hq, parseDigits_natToDecimal]
  rfl

theorem pyInt_decimal_colon_none (v w : Nat) :
    pyInt (natToDecimal v ++ ':' :: natToDecimal w ++ ['\n']) = none := by
  have hassoc : natToDecimal v ++ (':' :: natToDecimal w) ++ ['\n']
      = (natToDecimal v ++ ':' :: natToDecimal w) ++ ['\n'] := by
    rw [List.append_assoc]
  have hnos : ∀ c ∈ natToDecimal v ++ ':' :: natToDecimal w, isSpaceChar c = false := by
    intro c hc
    rcases List.mem_append.mp hc with h1 | h1
    · exact natToDecimal_no_space v c h1
    · rcases List.mem_cons.mp h1 with h2 | h2
      · subst h2; rfl
      · exact natToDecimal_no_space w c h2
  have hne : natToDecimal v ++ ':' :: natToDecimal w ≠ [] := by
    intro h
    exact natToDecimal_ne_nil v (List.append_eq_nil.mp h).1
  have hstrip : pyStrip (natToDecimal v ++ (':' :: natToDecimal w) ++ ['\n'])
      = natToDecimal v ++ ':' :: natToDecimal w := by
    rw [hassoc]
    exact pyStrip_append_newline _ hne hnos
  obtain ⟨d, q, hd, hq⟩ := exists_digit_head v (':' :: natToDecimal w)
  rw [pyInt_of_digit_head _ d q hd (by rw [hstrip, hq]), ← hq]
  have hpd : parseDigits (natToDecimal v ++ ':' :: natToDecimal w) = none := by
    have hne2 : (natToDecimal v ++ ':' :: natToDecimal w).isEmpty = false := by
      cases h : natToDecimal v ++ ':' :: natToDecimal w with
      | nil => exact absurd h hne
      | cons a l => rfl
    rw [parseDigits, hne2]
    simp only [Bool.false_eq_true, if_false]
    rw [parseDigitsAux_append, parseDigitsAux_natToDecimal]
    simp only [parseDigitsAux]
    have hcolon : digitVal ':' = none := rfl
    rw [hcolon]
  rw [hpd]
  rfl

/-! ## Splitting on colons -/

theorem splitOnColon_no_colon (s : List Char) (h : ∀ c ∈ s, c ≠ ':') :
    splitOnColon s = [s] := by
  induction s with
  | nil => rfl
  | cons c cs ih =>
    rw [splitOnColon, if_neg (h c (List.mem_cons_self c cs)),
      ih (fun x hx => h x (List.mem_cons_of_mem c hx))]

theorem splitOnColon_append_colon (xs ys : List Char) (h : ∀ c ∈ xs, c ≠ ':') :
    splitOnColon (xs ++ ':' :: ys) = xs :: splitOnColon ys := by
  induction xs with
  | nil => rw [List.nil_append, splitOnColon, if_pos rfl]
  | cons c cs ih =>
    rw [List.cons_append, splitOnColon, if_neg (h c (List.mem_cons_self c cs)),
      ih (fun x hx => h x (List.mem_cons_of_mem c hx))]

theorem natToDecimal_no_colon (n : Nat) : ∀ c ∈ natToDecimal n, c ≠ ':' := by
  intro c hc
  obtain ⟨d, hd, rfl⟩ := natToDecimal_mem n c hc
  exact (digitChar_props d hd).2.2.1

theorem splitOnColon_encoded (v w : Nat) :
    splitOnColon (natToDecimal v ++ ':' :: natToDecimal w ++ ['\n'])
      = [natToDecimal v, natToDecimal w ++ ['\n']] := by
  rw [List.append_assoc, List.cons_append,
    splitOnColon_append_colon _ _ (natToDecimal_no_colon v), splitOnColon_no_colon]
  intro c hc
  rcases List.mem_append.mp hc with h1 | h1
  · exact natToDecimal_no_colon w c h1
  · simp only [List.mem_singleton] at h1
    subst h1
    decide

/-! ## The byte/integer conversion pair -/

theorem fromBytesLE_zero_all (c : List Nat) (h : fromBytesLE c = 0) : ∀ b ∈ c, b = 0 := by
  induction c with
  | nil => intro b hb; simp at hb
  | cons a l ih =>
    simp only [fromBytesLE] at h
    have ha : a = 0 := by omega
    have hl : fromBytesLE l = 0 := by omega
    intro b hb
    rcases List.mem_cons.mp hb with h1 | h1
    · rw [h1, ha]
    · exact ih hl b h1

theorem all_zero_replicate (c : List Nat) (h : ∀ b ∈ c, b = 0) :
    c = List.replicate c.length 0 := by
  induction c with
  | nil => rfl
  | cons a l ih =>
    rw [List.length_cons, List.replicate_succ, h a (List.mem_cons_self a l),
      ← ih (fun b hb => h b (List.mem_cons_of_mem a hb))]

theorem fromBytesLE_replicate_zero (k : Nat) : fromBytesLE (List.replicate k 0) = 0 := by
  induction k with
  | zero => rfl
  | succ m ih => simp [List.replicate_succ, fromBytesLE, ih]

theorem bitfy_pad_eq (c : List Nat) (hne : c ≠ []) (hb : ∀ b ∈ c, b < 256) :
    bitfy (fromBytesLE c) ++ List.replicate (c.length - (bitfy (fromBytesLE c)).length) 0
      = c := by
  induction c with
  | nil => exact absurd rfl hne
  | cons b l ih =>
    have hb256 : b < 256 := hb b (List.mem_cons_self b l)
    have hmod : (b + 256 * fromBytesLE l) % 256 = b := by
      rw [Nat.add_mul_mod_self_left, Nat.mod_eq_of_lt hb256]
    have hdiv : (b + 256 * fromBytesLE l) / 256 = fromBytesLE l := by
      rw [Nat.add_mul_div_left _ _ (by norm_num : 0 < 256), Nat.div_eq_of_lt hb256]
      omega
    simp only [fromBytesLE]
    rw [bitfy_eq, hdiv, hmod]
    by_cases hl : fromBytesLE l = 0
    · rw [if_pos hl]
      have hrep : l = List.replicate l.length 0 :=
        all_zero_replicate l (fromBytesLE_zero_all l hl)
    
      rw [List.length_cons, List.length_singleton, Nat.add_sub_cancel,
        List.singleton_append]
      rw [← hrep]
    · rw [if_neg hl]
      have hlne : l ≠ [] := by
        intro h
        rw [h] at hl
        exact hl rfl
      rw [List.cons_append]
      rw [List.length_cons, List.length_cons, Nat.succ_sub_succ]
      rw [ih hlne (fun x hx => hb x (List.mem_cons_of_mem b hx))]

theorem ljust_bitfy_eq (c : List Nat) (hne : c ≠ []) (hb : ∀ b ∈ c, b < 256) :
    ljust (bitfy (fromBytesLE c)) ((c.length : Nat) : Int) = c := by
  rw [ljust, Int.toNat_natCast]
  exact bitfy_pad_eq c hne hb

/-! ## Decoding an encoded chunk -/

theorem decode_line_encode_chunk (c : List Nat) (hne : c ≠ [])
    (hlen : c.length ≤ chunk_size) (hb : ∀ b ∈ c, b < 256) :
    decode_line (encode_chunk c) = Except.ok c := by
  by_cases hshort : c.length < chunk_size
  · have henc : encode_chunk c
        = natToDecimal (fromBytesLE c) ++ ':' :: natToDecimal c.length ++ ['\n'] := by
      rw [encode_chunk, if_pos hshort]
    rw [henc]
    have h0 := pyInt_decimal_colon_none (fromBytesLE c) c.length
    have hsplit := splitOnColon_encoded (fromBytesLE c) c.length
    simp only [decode_line, h0, hsplit, List.headD_cons, List.get?_cons_succ,
      List.get?_cons_zero, pyInt_natToDecimal, pyInt_natToDecimal_newline]
    rw [if_pos (Int.natCast_nonneg _), Int.toNat_natCast]
    exact congrArg Except.ok (ljust_bitfy_eq c hne hb)
  · have hfull : c.length = chunk_size := by omega
    have henc : encode_chunk c = natToDecimal (fromBytesLE c) ++ ['\n'] := by
      rw [encode_chunk, if_neg hshort, List.append_nil]
    rw [henc]
    simp only [decode_line, pyInt_natToDecimal_newline]
    rw [if_pos (Int.natCast_nonneg _), Int.toNat_natCast, ← hfull]
    exact congrArg Except.ok (ljust_bitfy_eq c hne hb)

/-! ## The full encode/decode loop -/

theorem encode_cons (a : Nat) (l : List Nat) :
    encode (a :: l)
      = encode_chunk ((a :: l).take chunk_size) :: encode ((a :: l).drop chunk_size) := by
  rw [encode, chunksOf_cons, List.map_cons]
  rfl

theorem decode_cons_ok (l : List Char) (ls : List (List Char)) (bs : List Nat)
    (h : decode_line l = Except.ok bs) :
    decode (l :: ls) = (bs ++ (decode ls).1, (decode ls).2) := by
  rcases hd : decode ls with ⟨rest, err⟩
  simp only [decode, h, hd]

theorem decode_encode_key : ∀ fuel B, B.length ≤ fuel → (∀ b ∈ B, b < 256) →
    decode (encode B) = (B, none) := by
  intro fuel
  induction fuel with
  | zero =>
    intro B hlen hb
    have hB : B = [] := List.eq_nil_of_length_eq_zero (by omega)
    subst hB
    rfl
  | succ f ih =>
    intro B hlen hb
    cases B with
    | nil => rfl
    | cons a l =>
      rw [encode_cons]
      have htake_ne : (a :: l).take chunk_size ≠ [] := by
        rw [show chunk_size = 31 + 1 from rfl, List.take_succ_cons]
        exact List.cons_ne_nil a _
      have htake_len : ((a :: l).take chunk_size).length ≤ chunk_size := by
        rw [List.length_take]
        exact min_le_left _ _
      have htake_mem : ∀ b ∈ (a :: l).take chunk_size, b < 256 :=
        fun b hbm => hb b (List.take_subset _ _ hbm)
      have hline := decode_line_encode_chunk _ htake_ne htake_len htake_mem
      rw [decode_cons_ok _ _ _ hline]
      have hdrop_len : ((a :: l).drop chunk_size).length ≤ f := by
        have hld : ((a :: l).drop chunk_size).length = (a :: l).length - chunk_size :=
          List.length_drop _ _
        rw [hld, List.length_cons]
        simp only [List.length_cons] at hlen
        have hpos : (0:Nat) < chunk_size := by norm_num [chunk_size]
        omega
      have hdrop_mem : ∀ b ∈ (a :: l).drop chunk_size, b < 256 :=
        fun b hbm => hb b (List.drop_subset _ _ hbm)
      rw [ih _ hdrop_len hdrop_mem]
      simp [List.take_append_drop]

/-! ## Abort behaviour of decode and further decode_line facts -/

theorem decode_prefix_ok_append (pre rest : List (List Char)) (l : List Char) (e : DecodeErr)
    (hpre : (decode pre).2 = none) (hl : decode_line l = Except.error e) :
    decode (pre ++ l :: rest) = ((decode pre).1, some e) := by
  induction pre with
  | nil => simp only [List.nil_append, decode, hl]
  | cons p ps ih =>
    cases hp : decode_line p with
    | error e0 =>
      exfalso
      have hcon : decode (p :: ps) = ([], some e0) := by simp only [decode, hp]
      rw [hcon] at hpre
      exact Option.noConfusion hpre
    | ok bs =>
      have hps : (decode ps).2 = none := by
        have hcon : decode (p :: ps) = (bs ++ (decode ps).1, (decode ps).2) :=
          decode_cons_ok _ _ _ hp
        rw [hcon] at hpre
        exact hpre
      rw [List.cons_append, decode_cons_ok _ _ _ hp, ih hps]
      rw [decode_cons_ok p ps bs hp]

theorem ljust_length (bs : List Nat) (w : Int) :
    (ljust bs w).length = max w.toNat bs.length := by
  rw [ljust, List.length_append, List.length_replicate]
  omega

theorem decode_line_canonical_pair (n t : Nat) :
    decode_line (natToDecimal n ++ ':' :: natToDecimal t ++ ['\n'])
      = Except.ok (ljust (bitfy n) ((t : Nat) : Int)) := by
  have h0 := pyInt_decimal_colon_none n t
  have hsplit := splitOnColon_encoded n t
  simp only [decode_line, h0, hsplit, List.headD_cons, List.get?_cons_succ,
    List.get?_cons_zero, pyInt_natToDecimal, pyInt_natToDecimal_newline]
  rw [if_pos (Int.natCast_nonneg _), Int.toNat_natCast]

theorem decode_line_canonical_single (n : Nat) :
    decode_line (natToDecimal n ++ ['\n'])
      = Except.ok (ljust (bitfy n) ((chunk_size : Nat) : Int)) := by
  simp only [decode_line, pyInt_natToDecimal_newline]
  rw [if_pos (Int.natCast_nonneg _), Int.toNat_natCast]

/-! ## Characterising bitfy as a stand-alone conversion -/

theorem bitfy_fromBytesLE (n : Nat) : fromBytesLE (bitfy n) = n := by
  induction n using Nat.strong_induction_on with
  | _ n ih =>
    rw [bitfy_eq]
    by_cases hq : n / 256 = 0
    · rw [if_pos hq]
      simp only [fromBytesLE]
      omega
    · rw [if_neg hq]
      simp only [fromBytesLE]
      rw [ih (n / 256) (Nat.div_lt_self (by omega) (by norm_num))]
      omega

theorem bitfy_lt (n : Nat) : ∀ b ∈ bitfy n, b < 256 := by
  induction n using Nat.strong_induction_on with
  | _ n ih =>
    rw [bitfy_eq]
    by_cases hq : n / 256 = 0
    · rw [if_pos hq]
      intro b hb
      simp only [List.mem_singleton] at hb
      rw [hb]
      exact Nat.mod_lt _ (by norm_num)
    · rw [if_neg hq]
      intro b hb
      rcases List.mem_cons.mp hb with h1 | h1
      · rw [h1]
        exact Nat.mod_lt _ (by norm_num)
      · exact ih (n / 256) (Nat.div_lt_self (by omega) (by norm_num)) b h1

theorem bitfy_ne_nil (n : Nat) : bitfy n ≠ [] := by
  rw [bitfy_eq]
  by_cases hq : n / 256 = 0
  · rw [if_pos hq]
    exact List.cons_ne_nil _ _
  · rw [if_neg hq]
    exact List.cons_ne_nil _ _

theorem bitfy_getLast (n : Nat) (h : 1 ≤ n) : (bitfy n).getLast? ≠ some 0 := by
  induction n using Nat.strong_induction_on with
  | _ n ih =>
    rw [bitfy_eq]
    by_cases hq : n / 256 = 0
    · rw [if_pos hq]
      simp only [List.getLast?_singleton]
      intro hcon
      rw [Option.some.injEq] at hcon
      omega
    · rw [if_neg hq]
      cases hbit : bitfy (n / 256) with
      | nil => exact absurd hbit (bitfy_ne_nil (n / 256))
      | cons x xs =>
        rw [List.getLast?_cons_cons, ← hbit]
        exact ih (n / 256) (Nat.div_lt_self (by omega) (by norm_num)) (by omega)

/-! ## Claim theorems -/

/-- C1: Round-trip — for every byte sequence B, decoding the encoded line
stream produced by `encode` from B yields exactly B (all bytes written, no
error); lengths 0, 1, 31, 32, 33 and multiples of 32 plus or minus 1 are
instances of the universally quantified statement. -/
theorem decode_encode_roundtrip (B : List Nat) (hB : ∀ b ∈ B, b < 256) :
    decode (encode B) = (B, none) :=
  decode_encode_key B.length B le_rfl hB

/-- Witness for C1 at a concrete 70-byte input (two full chunks and a short
final chunk). -/
theorem decode_encode_roundtrip_witness :
    decode (encode (List.range 70)) = (List.range 70, none) :=
  decode_encode_roundtrip (List.range 70) (by decide)

/-- C2 counterexample: the line `256:1` whose integer needs 2 bytes against
a declared length of 1 does not fail at all — `decode_line` returns the two
bytes `[0, 1]`, so no `LengthError` exists in the code. -/
theorem decode_line_overlong_no_failure :
    decode_line ['2', '5', '6', ':', '1', '\n'] = Except.ok [0, 1] := rfl

/-- C2 amended: when the integer's minimal little-endian representation is
at least as long as the declared target length, `decode_line` succeeds and
returns that minimal representation unpadded (`ljust` never truncates), so
the over-long case yields bytes longer than the declared target instead of
failing. -/
theorem decode_line_overlong_returns_minimal (n t : Nat) (h : t ≤ (bitfy n).length) :
    decode_line (natToDecimal n ++ ':' :: natToDecimal t ++ ['\n'])
      = Except.ok (bitfy n) := by
  rw [decode_line_canonical_pair, ljust, Int.toNat_natCast]
  have hz : t - (bitfy n).length = 0 := by omega
  rw [hz, List.replicate_zero, List.append_nil]

/-- Witness for C2's amended statement at the line `256:1`. -/
theorem decode_line_overlong_returns_minimal_witness :
    decode_line (natToDecimal 256 ++ ':' :: natToDecimal 1 ++ ['\n'])
      = Except.ok (bitfy 256) :=
  decode_line_overlong_returns_minimal 256 1 (by decide)

/-- C3 counterexample: `bitfy` maps 0 to the single zero byte `[0]`, not to
the empty byte sequence the claim describes. -/
theorem bitfy_zero_singleton :
    bitfy 0 = [0] ∧ bitfy 0 ≠ ([] : List Nat) :=
  ⟨rfl, by decide⟩

/-- C3 amended: the conversion emits the remainder before testing the
quotient, so 0 yields the single byte `[0]`; for every n the emitted bytes
are below 256 and reassemble to n little-endian, and for n at least 1 the
result is the minimal representation (no trailing high-order zero byte). -/
theorem bitfy_characterisation (n : Nat) :
    bitfy 0 = [0]
    ∧ fromBytesLE (bitfy n) = n
    ∧ (∀ b ∈ bitfy n, b < 256)
    ∧ (1 ≤ n → (bitfy n).getLast? ≠ some 0) :=
  ⟨rfl, bitfy_fromBytesLE n, bitfy_lt n, bitfy_getLast n⟩

/-- Witness for C3's amended statement at n = 513. -/
theorem bitfy_characterisation_witness :
    bitfy 0 = [0]
    ∧ fromBytesLE (bitfy 513) = 513
    ∧ (∀ b ∈ bitfy 513, b < 256)
    ∧ (1 ≤ 513 ∧ (bitfy 513).getLast? ≠ some 0) :=
  ⟨(bitfy_characterisation 513).1, (bitfy_characterisation 513).2.1,
    (bitfy_characterisation 513).2.2.1,
    by decide, (bitfy_characterisation 513).2.2.2 (by decide)⟩

/-- C4: a chunk of exactly `chunk_size` bytes encodes to a line containing
no colon at all; a chunk of length L with 1 ≤ L < `chunk_size` encodes to a
line whose single colon is followed by the decimal of L, the chunk's true
byte length. -/
theorem encode_chunk_suffix_rule (c : List Nat) (h1 : 1 ≤ c.length)
    (h2 : c.length ≤ chunk_size) :
    (c.length = chunk_size → ':' ∉ encode_chunk c)
    ∧ (c.length < chunk_size →
        ∃ pre, encode_chunk c = pre ++ ':' :: natToDecimal c.length ++ ['\n']
          ∧ ':' ∉ pre) := by
  constructor
  · intro hfull
    rw [encode_chunk, if_neg (by omega : ¬ c.length < chunk_size), List.append_nil]
    intro hmem
    rcases List.mem_append.mp hmem with hx | hx
    · exact natToDecimal_no_colon _ _ hx rfl
    · simp only [List.mem_singleton] at hx
      exact absurd hx (by decide)
  · intro hshort
    refine ⟨natToDecimal (fromBytesLE c), ?_, ?_⟩
    · rw [encode_chunk, if_pos hshort]
    · intro hmem
      exact natToDecimal_no_colon _ _ hmem rfl

/-- Witness for C4 at a full 32-byte chunk and at the 2-byte chunk `[1, 2]`. -/
theorem encode_chunk_suffix_rule_witness :
    ':' ∉ encode_chunk (List.replicate 32 1)
    ∧ ∃ pre, encode_chunk [1, 2] = pre ++ ':' :: natToDecimal 2 ++ ['\n']
        ∧ ':' ∉ pre :=
  ⟨(encode_chunk_suffix_rule (List.replicate 32 1) (by decide) (by decide)).1 (by decide),
    (encode_chunk_suffix_rule [1, 2] (by decide) (by decide)).2 (by decide)⟩

/-- C5 counterexample: the accepted line `256:1` returns 2 bytes although
its declared target length is 1, so the returned length is not always the
target length. -/
theorem decode_line_wrong_length :
    (decode_line ['2', '5', '6', ':', '1', '\n']).map List.length = Except.ok 2
    ∧ (2 : Nat) ≠ 1 :=
  ⟨rfl, by decide⟩

/-- C5 amended: on a canonical line the returned byte count is the maximum
of the declared target length (`chunk_size` when there is no suffix) and
the length of the integer's minimal representation; it equals the target
exactly when the minimal representation fits. -/
theorem decode_line_length_eq_max (n t : Nat) :
    (decode_line (natToDecimal n ++ ['\n'])).map List.length
      = Except.ok (max chunk_size (bitfy n).length)
    ∧ (decode_line (natToDecimal n ++ ':' :: natToDecimal t ++ ['\n'])).map List.length
      = Except.ok (max t (bitfy n).length) := by
  constructor
  · rw [decode_line_canonical_single]
    simp only [Except.map]
    rw [ljust_length, Int.toNat_natCast]
  · rw [decode_line_canonical_pair]
    simp only [Except.map]
    rw [ljust_length, Int.toNat_natCast]

/-- C6 counterexample: the line `+7` is outside the spec's
`INTEGER`/`INTEGER:LENGTH` grammar yet `decode_line` accepts it and
returns bytes, and the line `-5` — whose integer side is not a valid
non-negative decimal integer — fails through the unbounded recursion of
`bitfy` on a negative value, not with a `FormatError`. -/
theorem decode_line_accepts_nongrammar :
    (specValidLine ['+', '7'] = false
      ∧ decode_line ['+', '7', '\n'] = Except.ok (7 :: List.replicate 31 0))
    ∧ (specValidLine ['-', '5'] = false
      ∧ decode_line ['-', '5', '\n'] = Except.error DecodeErr.recursionError) :=
  ⟨⟨rfl, rfl⟩, ⟨rfl, rfl⟩⟩

/-- C6 amended, part of the success characterisation: when the whole line
parses to a non-negative integer, `decode_line` succeeds. -/
theorem decode_line_whole_nonneg (l : List Char) (n : Int)
    (h : pyInt l = some n) (hn : 0 ≤ n) :
    decode_line l = Except.ok (ljust (bitfy n.toNat) (chunk_size : Int)) := by
  simp only [decode_line, h]
  rw [if_pos hn]

/-- C6 amended, failure side of the whole-line branch: a negative parse of
the whole line fails with the recursion crash. -/
theorem decode_line_whole_neg (l : List Char) (n : Int)
    (h : pyInt l = some n) (hn : ¬ 0 ≤ n) :
    decode_line l = Except.error DecodeErr.recursionError := by
  simp only [decode_line, h]
  rw [if_neg hn]

/-- C6 amended: `decode_line` succeeds exactly when Python `int()` yields a
non-negative integer for the whole line, or — the whole line failing to
parse — yields a non-negative integer for the first colon field while a
second colon field exists and parses as an integer of any sign; every
other line fails, and `decode` aborts at a failing line, leaving the
partial output of the preceding lines in place. -/
theorem decode_aborts_on_failing_line (pre rest : List (List Char)) (l : List Char)
    (hpre : (decode pre).2 = none) :
    ((∃ bs, decode_line l = Except.ok bs) ↔
       (∃ n : Nat, pyInt l = some ((n : Nat) : Int))
       ∨ (pyInt l = none
           ∧ (∃ n : Nat, pyInt ((splitOnColon l).headD []) = some ((n : Nat) : Int))
           ∧ ∃ s, (splitOnColon l).get? 1 = some s ∧ ∃ p : Int, pyInt s = some p))
    ∧ ∀ e, decode_line l = Except.error e →
        decode (pre ++ l :: rest) = ((decode pre).1, some e) := by
  refine ⟨?_, fun e he => decode_prefix_ok_append pre rest l e hpre he⟩
  cases hw : pyInt l with
  | some n =>
    by_cases hn : 0 ≤ n
    · constructor
      · intro _
        exact Or.inl ⟨n.toNat, by rw [Int.toNat_of_nonneg hn]⟩
      · intro _
        exact ⟨_, decode_line_whole_nonneg l n hw hn⟩
    · constructor
      · rintro ⟨bs, hbs⟩
        rw [decode_line_whole_neg l n hw hn] at hbs
        exact Except.noConfusion hbs
      · rintro (⟨m, hm⟩ | ⟨hnone, _, _⟩)
        · rw [Option.some.injEq] at hm
          refine absurd ?_ hn
          rw [hm]
          exact Int.natCast_nonneg m
        · exact Option.noConfusion hnone
  | none =>
    cases h0 : pyInt ((splitOnColon l).headD []) with
    | none =>
      constructor
      · rintro ⟨bs, hbs⟩
        have hfe : decode_line l = Except.error DecodeErr.formatError := by
          simp only [decode_line, hw, h0]
        rw [hfe] at hbs
        exact Except.noConfusion hbs
      · rintro (⟨m, hm⟩ | ⟨_, ⟨m, hm⟩, _⟩)
        · exact Option.noConfusion hm
        · exact Option.noConfusion hm
    | some n =>
      cases h1 : (splitOnColon l).get? 1 with
      | none =>
        constructor
        · rintro ⟨bs, hbs⟩
          have hie : decode_line l = Except.error DecodeErr.indexError := by
            simp only [decode_line, hw, h0, h1]
          rw [hie] at hbs
          exact Except.noConfusion hbs
        · rintro (⟨m, hm⟩ | ⟨_, _, ⟨s, hs, _⟩⟩)
          · exact Option.noConfusion hm
          · exact Option.noConfusion hs
      | some s =>
        cases h2 : pyInt s with
        | none =>
          constructor
          · rintro ⟨bs, hbs⟩
            have hfe : decode_line l = Except.error DecodeErr.formatError := by
              simp only [decode_line, hw, h0, h1, h2]
            rw [hfe] at hbs
            exact Except.noConfusion hbs
          · rintro (⟨m, hm⟩ | ⟨_, _, ⟨s2, hs2, p2, hp2⟩⟩)
            · exact Option.noConfusion hm
            · rw [Option.some.injEq] at hs2
              rw [← hs2, h2] at hp2
              exact Option.noConfusion hp2
        | some p =>
          by_cases hn : 0 ≤ n
          · constructor
            · intro _
              refine Or.inr ⟨rfl, ⟨n.toNat, ?_⟩, s, rfl, p, h2⟩
              rw [Int.toNat_of_nonneg hn]
            · intro _
              refine ⟨ljust (bitfy n.toNat) p, ?_⟩
              simp only [decode_line, hw, h0, h1, h2]
              rw [if_pos hn]
          · constructor
            · rintro ⟨bs, hbs⟩
              have hre : decode_line l = Except.error DecodeErr.recursionError := by
                simp only [decode_line, hw, h0, h1, h2]
                rw [if_neg hn]
              rw [hre] at hbs
              exact Except.noConfusion hbs
            · rintro (⟨m, hm⟩ | ⟨_, ⟨m, hm⟩, _⟩)
              · exact Option.noConfusion hm
              · rw [Option.some.injEq] at hm
                refine absurd ?_ hn
                rw [hm]
                exact Int.natCast_nonneg m

/-- Witness for C6's amended statement at the unparsable line `a` over an
empty preceding stream: the success characterisation is instantiated and
the abort conclusion holds for its error. -/
theorem decode_aborts_on_failing_line_witness :
    ((∃ bs, decode_line ['a', '\n'] = Except.ok bs) ↔
       (∃ n : Nat, pyInt ['a', '\n'] = some ((n : Nat) : Int))
       ∨ (pyInt ['a', '\n'] = none
           ∧ (∃ n : Nat,
               pyInt ((splitOnColon ['a', '\n']).headD []) = some ((n : Nat) : Int))
           ∧ ∃ s, (splitOnColon ['a', '\n']).get? 1 = some s
               ∧ ∃ p : Int, pyInt s = some p))
    ∧ ∀ e, decode_line ['a', '\n'] = Except.error e →
        decode [['a', '\n']] = ([], some e) :=
  decode_aborts_on_failing_line [] [] ['a', '\n'] rfl

/-- C7: an all-zero chunk of length L encodes to the line `0` when
L = `chunk_size` and to `0:L` when L < `chunk_size`; decoding `0` yields
exactly `chunk_size` zero bytes and decoding `0:5` exactly 5 zero bytes. -/
theorem zero_chunk_handling (L : Nat) (h1 : 1 ≤ L) (h2 : L ≤ chunk_size) :
    (L = chunk_size → encode_chunk (List.replicate L 0) = ['0', '\n'])
    ∧ (L < chunk_size →
        encode_chunk (List.replicate L 0) = '0' :: ':' :: natToDecimal L ++ ['\n'])
    ∧ decode_line ['0', '\n'] = Except.ok (List.replicate chunk_size 0)
    ∧ decode_line ['0', ':', '5', '\n'] = Except.ok (List.replicate 5 0) := by
  have hlen : (List.replicate L 0).length = L := List.length_replicate _ _
  refine ⟨?_, ?_, rfl, rfl⟩
  · intro hfull
    rw [encode_chunk, hlen, if_neg (by omega : ¬ L < chunk_size), List.append_nil,
      fromBytesLE_replicate_zero]
    rfl
  · intro hshort
    rw [encode_chunk, hlen, if_pos hshort, fromBytesLE_replicate_zero]
    rfl

/-- Witness for C7 at L = 32 and L = 5. -/
theorem zero_chunk_handling_witness :
    encode_chunk (List.replicate 32 0) = ['0', '\n']
    ∧ encode_chunk (List.replicate 5 0) = '0' :: ':' :: natToDecimal 5 ++ ['\n']
    ∧ decode_line ['0', '\n'] = Except.ok (List.replicate chunk_size 0) :=
  ⟨(zero_chunk_handling 32 (by decide) (by decide)).1 rfl,
    (zero_chunk_handling 5 (by decide) (by decide)).2.1 (by decide),
    (zero_chunk_handling 5 (by decide) (by decide)).2.2.1⟩

/-- C8: the 32-byte chunk `1` followed by 31 zero bytes encodes to the line
`1`; the 2-byte chunk `[1, 2]` encodes to `513:2` and that line decodes
back to exactly `[1, 2]`. -/
theorem concrete_scenario :
    encode (1 :: List.replicate 31 0) = [['1', '\n']]
    ∧ encode [1, 2] = [['5', '1', '3', ':', '2', '\n']]
    ∧ decode_line ['5', '1', '3', ':', '2', '\n'] = Except.ok [1, 2] :=
  ⟨rfl, rfl, rfl⟩

/-- C9: the code derives the decode output name with a character-set
`rstrip`, so the input `head.decima` is written to `h`, not to `head` as
exact `.decima`-suffix removal would give. -/
theorem decodedFileName_head_decima :
    decodedFileName ['h', 'e', 'a', 'd', '.', 'd', 'e', 'c', 'i', 'm', 'a'] = ['h']
    ∧ (['h'] : List Char) ≠ ['h', 'e', 'a', 'd'] :=
  ⟨rfl, by decide⟩

/-- C10: `decode_line` accepts lines outside the EncodedLine grammar:
leading zeros, surrounding whitespace and a leading plus sign decode to
the same bytes as the canonical numeral of equal value, and extra colon
fields beyond the second are silently ignored, while the canonical forms
are inside the grammar. -/
theorem decode_line_lenient :
    (specValidLine ['0', '1', '0'] = false
      ∧ decode_line ['0', '1', '0', '\n'] = decode_line ['1', '0', '\n'])
    ∧ (specValidLine [' ', '1', '0', ' '] = false
      ∧ decode_line [' ', '1', '0', ' ', '\n'] = decode_line ['1', '0', '\n'])
    ∧ (specValidLine ['+', '1', '0'] = false
      ∧ decode_line ['+', '1', '0', '\n'] = decode_line ['1', '0', '\n'])
    ∧ (specValidLine ['5', '1', '3', ':', '2', ':', '9', '9'] = false
      ∧ decode_line ['5', '1', '3', ':', '2', ':', '9', '9', '\n']
          = decode_line ['5', '1', '3', ':', '2', '\n'])
    ∧ specValidLine ['1', '0'] = true
    ∧ specValidLine ['5', '1', '3', ':', '2'] = true :=
  ⟨⟨rfl, rfl⟩, ⟨rfl, rfl⟩, ⟨rfl, rfl⟩, ⟨rfl, rfl⟩, rfl, rfl⟩

end Decima
